import Mathlib

/-! Orikami render resolution pipeline.

A shallow embedding of `src/orikami/server/server.go` (package `server`):
the store option resolver, the batch value prefetcher, the layered value
merger, the secret projector and the template substitution step, followed
by the properties proved about them.

Go maps are association lists with distinct keys (`AList`); a Go `range`
over a map visits the entries of the list. Go strings are `String`;
values of type `interface{}` produced by `encoding/json` are `JSON`.
-/

namespace Orikami

/-- A Go `map[string]V`: finitely many bindings with distinct keys. -/
abbrev GoMap (V : Type) : Type := AList (fun _ : String => V)

/-- A Go `interface{}` as `encoding/json` decodes it: `nil`, `bool`,
number, `string`, `[]interface{}` or `map[string]interface{}`. -/
inductive JSON where
  | null : JSON
  | bool (b : Bool) : JSON
  | num (n : Int) : JSON
  | str (s : String) : JSON
  | arr (xs : List JSON) : JSON
  | obj (kvs : List (String × JSON)) : JSON

/-- Modelled from the spec: one `ValueEntry` of a render request (the Go
declaration of `RenderDto` is not among the sources); the two fields are
the ones `Render` and `prefetchValuesByBatch` read. -/
structure ValueDto where
  Path : String
  StoreKeys : List String

/-- Modelled from the spec: the render request, an ordered sequence of
value entries (`render.Values`). -/
structure RenderDto where
  Values : List ValueDto

/-- Go `json.Unmarshal([]byte(data), &vm)` with `vm` a nil
`map[string]interface{}`: empty input is rejected before the target is
touched, otherwise the library decoder `decodeObject` decides; `none` is a
`vm` left nil. -/
def unmarshalObject (decodeObject : String → Option (GoMap JSON)) (data : String) :
    Option (GoMap JSON) :=
  if data = "" then none else decodeObject data

/-- Go `storeValueMap[store][path]`: indexing a missing key of a Go map gives
the zero value, here a nil inner map and then the empty string. -/
def index2 (storeValueMap : GoMap (GoMap String)) (store path : String) : String :=
  match storeValueMap.lookup store with
  | none => ""
  | some inner => (inner.lookup path).getD ""

/-- Go `for k, v := range vm { templateValueMap[k] = v }` (server.go 253-255);
a nil `vm` has no entries. -/
def rangeAssign (vm : Option (GoMap JSON)) (templateValueMap : GoMap JSON) : GoMap JSON :=
  match vm with
  | none => templateValueMap
  | some m => m.entries.foldl (fun acc e => acc.insert e.1 e.2) templateValueMap

/-- Go `if len(storeKeys) == 0 { storeKeys = append(storeKeys, store) }`
(server.go 243-245 with the ambient store, 275-277 with `""`). -/
def defaultStoreKeys (storeKeys : List String) (store : String) : List String :=
  if storeKeys.length = 0 then storeKeys ++ [store] else storeKeys

/-- The inner loop of `Render` (server.go 247-256): the store keys are
visited from the last index down to 0. -/
def mergeStores (decodeObject : String → Option (GoMap JSON))
    (storeValueMap : GoMap (GoMap String)) (path : String)
    (storeKeys : List String) (templateValueMap : GoMap JSON) : GoMap JSON :=
  storeKeys.foldr
    (fun store acc => rangeAssign (unmarshalObject decodeObject (index2 storeValueMap store path)) acc)
    templateValueMap

/-- The outer loop of `Render` (server.go 233, 238-260): the entries are
visited from the last index down to 0, starting from an empty map. -/
def mergeValues (decodeObject : String → Option (GoMap JSON)) (store : String)
    (storeValueMap : GoMap (GoMap String)) (values : List ValueDto) : GoMap JSON :=
  values.foldr
    (fun val acc =>
      mergeStores decodeObject storeValueMap val.Path (defaultStoreKeys val.StoreKeys store) acc)
    ∅

/-- The sources of a request in declaration order: entries in request
order, and within an entry its effective store keys in list order. -/
def declaredSources (store : String) (values : List ValueDto) : List (String × String) :=
  values.flatMap (fun val => (defaultStoreKeys val.StoreKeys store).map (fun s => (s, val.Path)))

/-- The value of key `k` in the document of source `(store, path)`, when the
raw value parses as an object that contains `k`. -/
def sourceValue (decodeObject : String → Option (GoMap JSON))
    (storeValueMap : GoMap (GoMap String)) (k : String) (sp : String × String) : Option JSON :=
  (unmarshalObject decodeObject (index2 storeValueMap sp.1 sp.2)).bind (fun vm => vm.lookup k)

/-- The server value together with the collaborators its methods call.
`SO` is `config.StoreOptions`, `SecO` is `config.SecretsOptions`; both are
opaque to the server, which only passes them on. -/
structure Server (SO SecO : Type) where
  /-- Field `svr.config.Storage`: the static fallback store options. -/
  configStorage : SO
  /-- Zero value of `config.StoreOptions` (`var opt config.StoreOptions`). -/
  zeroStoreOptions : SO
  /-- Zero value of `config.SecretsOptions`. -/
  zeroSecretsOptions : SecO
  /-- Call `svr.configRepoFactory(svr.config).GetStoreOptions(name)`; `none` is a nil slice. -/
  repoGetStoreOptions : String → Option String
  /-- Call `svr.configRepoFactory(svr.config).GetSecretsOptions(name)`; `none` is a nil slice. -/
  repoGetSecretsOptions : String → Option String
  /-- Decoder of `encoding/json` into a `config.StoreOptions` target, on non-empty input. -/
  decodeStoreOptions : String → SO → SO
  /-- Decoder of `encoding/json` into a `config.SecretsOptions` target, on non-empty input. -/
  decodeSecretsOptions : String → SecO → SecO
  /-- Decoder of `encoding/json` into a nil `map[string]interface{}`, on non-empty input. -/
  decodeObject : String → Option (GoMap JSON)
  /-- Call `storage.GetValuesStore(opt).GetValuesInBatch(paths)`. -/
  valuesInBatch : SO → List String → GoMap String
  /-- Call `storage.GetTemplateStore(opt).GetTemplate(path)`. -/
  templateAt : SO → String → String
  /-- Call `storage.GetSecretsMapStore(opt).GetSecretsMap(engine, path)`. -/
  secretsMapAt : SO → String → String → String
  /-- Call `jsonpatch.MergePatch(doc, patch)`; `none` is the nil slice returned with an error. -/
  mergePatch : String → String → Option String
  /-- Call `secret.GetSecretClient(secretOpt, opt).GetSecret(path)`, re-serialised by
  `json.Marshal` and read back by `ajson.Unmarshal` into a JSON tree. -/
  secretAt : SecO → Option (GoMap JSON) → String → JSON
  /-- Call `root.JSONPath(expr)` of ajson: the matched nodes in match order (none on error). -/
  jsonPath : JSON → String → List JSON
  /-- Call `json.Marshal(result)` on the projection result. -/
  marshalResult : GoMap JSON → String

/-- Go `json.Unmarshal(data, &target)` for a struct target: nil or empty input
is rejected before the target is touched. -/
def unmarshalInto {α : Type} (decode : String → α → α) (data : Option String) (target : α) : α :=
  match data with
  | none => target
  | some d => if d = "" then target else decode d target

/-- Go `Server.GetStoreOptions` (server.go 161-178). -/
def GetStoreOptions {SO SecO : Type} (svr : Server SO SecO) (store : String) : SO :=
  let opt := svr.zeroStoreOptions
  if store = "" then
    match svr.repoGetStoreOptions "default" with
    | some optJson => unmarshalInto svr.decodeStoreOptions (some optJson) opt
    | none => svr.configStorage
  else
    unmarshalInto svr.decodeStoreOptions (svr.repoGetStoreOptions store) opt

/-- Go `Server.GetTemplate` (server.go 35-39). -/
def GetTemplate {SO SecO : Type} (svr : Server SO SecO) (store path : String) : String :=
  svr.templateAt (GetStoreOptions svr store) path

/-- Go `Server.GetValuesInBatch` (server.go 60-64). -/
def GetValuesInBatch {SO SecO : Type} (svr : Server SO SecO) (store : String)
    (paths : List String) : GoMap String :=
  svr.valuesInBatch (GetStoreOptions svr store) paths

/-- The first loop of `prefetchValuesByBatch` (server.go 272-281):
`storeMap[s] = append(storeMap[s], val.Path)` for every store key of every
entry, an empty `StoreKeys` standing for `[""]`. -/
def buildStoreMap (values : List ValueDto) : GoMap (List String) :=
  values.foldl
    (fun storeMap val =>
      (defaultStoreKeys val.StoreKeys "").foldl
        (fun storeMap s => storeMap.insert s ((storeMap.lookup s).getD [] ++ [val.Path]))
        storeMap)
    ∅

/-- The inner loop of the second phase (server.go 288-293):
`storeValueMap[store][valuePath] = val` for every entry of the batch result,
the inner map being created on first use. -/
def storeBatch (storeValueMap : GoMap (GoMap String)) (store : String)
    (valMap : GoMap String) : GoMap (GoMap String) :=
  valMap.entries.foldl
    (fun svm e => svm.insert store (((svm.lookup store).getD ∅).insert e.1 e.2))
    storeValueMap

/-- What `prefetchValuesByBatch` does: the `GetValuesInBatch` calls it
issues, as (store, paths) in the order issued, and the map it returns. -/
structure Prefetch where
  calls : List (String × List String)
  storeValueMap : GoMap (GoMap String)

/-- Go `prefetchValuesByBatch` (server.go 269-297). -/
def prefetchValuesByBatch {SO SecO : Type} (render : RenderDto) (svr : Server SO SecO) :
    Prefetch :=
  (buildStoreMap render.Values).entries.foldl
    (fun st e =>
      { calls := st.calls ++ [(e.1, e.2)]
        storeValueMap := storeBatch st.storeValueMap e.1 (GetValuesInBatch svr e.1 e.2) })
    { calls := [], storeValueMap := ∅ }

/-- The store names a request references for prefetching, one per listed
store key, an entry with empty `StoreKeys` referencing the store `""`. -/
def referencedStores (values : List ValueDto) : List String :=
  values.flatMap (fun val => defaultStoreKeys val.StoreKeys "")

/-- The paths referenced under store `s`, one per reference, in request order. -/
def pathsUnder (s : String) (values : List ValueDto) : List String :=
  ((declaredSources "" values).filter (fun sp => sp.1 = s)).map (fun sp => sp.2)

/-! ## Template substitution (`github.com/valyala/fasttemplate`)

`Render` calls `fasttemplate.New(rawTmpl, "{{", "}}")` and then
`tmpl.Execute(buf, templateValueMap)`. The definitions below follow the
library's `Template.Reset`, `New`, `stdTagFunc`, `Template.ExecuteFunc` and
`Template.Execute`; a Go panic is an `Except.error`. Byte slices are lists
of characters: both delimiters are ASCII, so searching them in the UTF-8
bytes and in the characters finds the same places. -/

/-- Go `bytes.Index(s, sep)`: the index of the first occurrence of `sep` in
`s`, `none` for -1. -/
def bytesIndex (sep : List Char) : List Char → Option Nat
  | [] => if sep = [] then some 0 else none
  | c :: t => if sep.isPrefixOf (c :: t) then some 0 else (bytesIndex sep t).map (· + 1)

/-- A parsed template: `t.texts` and `t.tags` of `fasttemplate.Template`,
with the raw `t.template`. -/
structure Template where
  template : List Char
  texts : List (List Char)
  tags : List String

/-- The scanning loop of `Template.Reset`: the text before the next start
tag is appended to `texts`, the bytes up to the next end tag to `tags`; a
start tag with no end tag after it is the error `Cannot find end tag`.
Every turn consumes a start tag, so `fuel` above the length of `s` is
never used up. -/
def resetLoop (a b : List Char) : Nat → List Char → Except String (List (List Char) × List String)
  | 0, _ => .error "fuel"
  | fuel + 1, s =>
    match bytesIndex a s with
    | none => .ok ([s], [])
    | some n =>
      let s1 := s.drop (n + a.length)
      match bytesIndex b s1 with
      | none => .error "Cannot find end tag"
      | some m =>
        match resetLoop a b fuel (s1.drop (m + b.length)) with
        | .error e => .error e
        | .ok r => .ok (s.take n :: r.1, String.mk (s1.take m) :: r.2)

/-- Go `Template.Reset` behind `fasttemplate.NewTemplate`: a template without
any start tag keeps `texts` and `tags` empty (`tagsCount == 0`). -/
def Template.Reset (template startTag endTag : List Char) : Except String Template :=
  if startTag.length = 0 then .error "startTag cannot be empty"
  else if endTag.length = 0 then .error "endTag cannot be empty"
  else
    match bytesIndex startTag template with
    | none => .ok { template := template, texts := [], tags := [] }
    | some _ =>
      match resetLoop startTag endTag (template.length + 1) template with
      | .error e => .error e
      | .ok r => .ok { template := template, texts := r.1, tags := r.2 }

/-- Go `fasttemplate.New`: panics with the error of `NewTemplate`. -/
def New (template startTag endTag : List Char) : Except String Template :=
  Template.Reset template startTag endTag

/-- Go `stdTagFunc` of fasttemplate with a map built by `encoding/json`: a
missing key or a nil value writes nothing, a string is written, any other
dynamic type panics (`unexpected value type`). -/
def stdTagFunc (tag : String) (m : GoMap JSON) : Except String (List Char) :=
  match m.lookup tag with
  | none => .ok []
  | some JSON.null => .ok []
  | some (JSON.str v) => .ok v.data
  | some _ => .error "unexpected value type"

/-- The loop of `Template.ExecuteFunc`: `texts[i]` then the value of
`tags[i]` for `i < n`, then `texts[n]`, with `n = len(texts) - 1`. -/
def executeLoop (m : GoMap JSON) : List (List Char) → List String → Except String (List Char)
  | [], _ => .ok []
  | [last], _ => .ok last
  | _ :: _, [] => .error "index out of range"
  | text :: texts, tag :: tags =>
    match stdTagFunc tag m with
    | .error e => .error e
    | .ok v =>
      match executeLoop m texts tags with
      | .error e => .error e
      | .ok rest => .ok (text ++ v ++ rest)

/-- Go `Template.Execute(w, m)`: with no texts (`n == -1`) the raw template
is written as it is. The result is the content of the buffer. -/
def Template.Execute (t : Template) (m : GoMap JSON) : Except String (List Char) :=
  match t.texts with
  | [] => .ok t.template
  | texts => executeLoop m texts t.tags

/-- The start delimiter `{{` that `Render` passes to `fasttemplate.New`. -/
def startTag : String := "\x7b\x7b"

/-- The end delimiter `}}` that `Render` passes to `fasttemplate.New`. -/
def endTag : String := "\x7d\x7d"

/-- The substitution step of `Render` (server.go 262-266). -/
def renderTemplate (rawTmpl : String) (templateValueMap : GoMap JSON) : Except String String :=
  match New rawTmpl.data startTag.data endTag.data with
  | .error e => .error e
  | .ok tmpl =>
    match tmpl.Execute templateValueMap with
    | .error e => .error e
    | .ok out => .ok (String.mk out)

/-- Go `Server.Render` (server.go 231-267). -/
def Render {SO SecO : Type} (svr : Server SO SecO) (store templatePath : String)
    (render : RenderDto) : Except String (String × Bool) :=
  let storeValueMap := (prefetchValuesByBatch render svr).storeValueMap
  let rawTmpl := GetTemplate svr store templatePath
  let templateValueMap := mergeValues svr.decodeObject store storeValueMap render.Values
  match renderTemplate rawTmpl templateValueMap with
  | .error e => .error e
  | .ok out => .ok (out, true)

/-! ## Secret projection -/

/-- Go `Server.GetSecretsOptions` (server.go 196-213). -/
def GetSecretsOptions {SO SecO : Type} (svr : Server SO SecO) (engine : String) : SecO :=
  let opt := svr.zeroSecretsOptions
  if engine = "" then
    match svr.repoGetSecretsOptions "default" with
    | some optJson => unmarshalInto svr.decodeSecretsOptions (some optJson) opt
    | none => opt
  else
    unmarshalInto svr.decodeSecretsOptions (svr.repoGetSecretsOptions engine) opt

/-- Go `if engine == "" { engine = "vault" }` (server.go 110-112). -/
def defaultEngine (engine : String) : String :=
  if engine = "" then "vault" else engine

/-- The map `opt` of `GetSecrets` (server.go 114-121): the stored descriptor
merge-patched with the user override and decoded; `none` is a nil map, left
so when the patch or the decoding fails. -/
def mergedDescriptor {SO SecO : Type} (svr : Server SO SecO)
    (engine store path userJsonOverrides : String) : Option (GoMap JSON) :=
  let secretsMap := svr.secretsMapAt (GetStoreOptions svr store) (defaultEngine engine) path
  match svr.mergePatch secretsMap userJsonOverrides with
  | none => none
  | some merged => unmarshalObject svr.decodeObject merged

/-- Go `opt[key]` on a possibly nil map: the zero value `nil` is `none`. -/
def indexOpt (opt : Option (GoMap JSON)) (key : String) : Option JSON :=
  opt.bind (fun m => m.lookup key)

/-- The type assertion `v.(string)`: panics unless `v` holds a string. -/
def assertString : Option JSON → Except String String
  | some (JSON.str s) => .ok s
  | _ => .error "interface conversion: interface is not string"

/-- The members of a decoded JSON object as a Go map. -/
def objectMap (kvs : List (String × JSON)) : GoMap JSON :=
  (kvs.map (fun kv => (⟨kv.1, kv.2⟩ : Sigma fun _ : String => JSON))).toAList

/-- The type assertion `v.(map[string]interface{})`. -/
def assertMap : Option JSON → Except String (GoMap JSON)
  | some (JSON.obj kvs) => .ok (objectMap kvs)
  | _ => .error "interface conversion: interface is not map[string]interface"

/-- The body of the projection loop (server.go 136-153) for one
`(k, jsonPath)` of the mapping. A matched node is carried as the JSON value
that `ajson.Marshal` followed by `json.Unmarshal` decodes it to. -/
def projectEntry (jsonPath : JSON → String → List JSON) (root : JSON)
    (result : GoMap JSON) (k : String) (pathExpr : JSON) : Except String (GoMap JSON) :=
  match assertString (some pathExpr) with
  | .error e => .error e
  | .ok expr =>
    match jsonPath root expr with
    | [] => .ok result
    | [node] => .ok (result.insert k node)
    | nodes => .ok (result.insert k (JSON.arr nodes))

/-- One turn of the projection loop; a panic in an earlier turn ends the loop. -/
def projectStep (jsonPath : JSON → String → List JSON) (root : JSON)
    (acc : Except String (GoMap JSON)) (e : Sigma fun _ : String => JSON) :
    Except String (GoMap JSON) :=
  match acc with
  | .error err => .error err
  | .ok result => projectEntry jsonPath root result e.1 e.2

/-- The projection of `GetSecrets` (server.go 131-154): `result` after the
loop over `mapping`. -/
def projectSecrets (jsonPath : JSON → String → List JSON) (mapping : GoMap JSON)
    (root : JSON) : Except String (GoMap JSON) :=
  mapping.entries.foldl (projectStep jsonPath root) (.ok ∅)

/-- What a `GetSecrets` call does: the paths it passed to the secret
backend's `GetSecret`, and its outcome (a panic is an error). -/
structure SecretsRun where
  getSecretCalls : List String
  outcome : Except String String

/-- Go `Server.GetSecrets` (server.go 108-159). -/
def GetSecrets {SO SecO : Type} (svr : Server SO SecO)
    (engine store path userJsonOverrides : String) : SecretsRun :=
  let opt := mergedDescriptor svr engine store path userJsonOverrides
  let secretOpt := GetSecretsOptions svr (defaultEngine engine)
  match assertString (indexOpt opt "path") with
  | .error e => { getSecretCalls := [], outcome := .error e }
  | .ok secretPath =>
    let root := svr.secretAt secretOpt opt secretPath
    match assertMap (indexOpt opt "map") with
    | .error e => { getSecretCalls := [secretPath], outcome := .error e }
    | .ok mapping =>
      match projectSecrets svr.jsonPath mapping root with
      | .error e => { getSecretCalls := [secretPath], outcome := .error e }
      | .ok result => { getSecretCalls := [secretPath], outcome := .ok (svr.marshalResult result) }

/-- What the projection binds an output key to when its path expression
matched `nodes`: nothing for no node, the node for one, the sequence of the
nodes for more. -/
def projected : List JSON → Option JSON
  | [] => none
  | [node] => some node
  | nodes => some (JSON.arr nodes)

/-- One entry with the source `(s, p)` removed; `none` when no source is left. -/
def removeSourceOf (store s p : String) (val : ValueDto) : Option ValueDto :=
  if val.Path = p then
    match (defaultStoreKeys val.StoreKeys store).filter (fun x => x ≠ s) with
    | [] => none
    | keys => some { Path := val.Path, StoreKeys := keys }
  else some val

/-- The request with the source `(s, p)` removed: `s` is taken out of the
effective store keys of every entry at path `p`, and an entry left without
any source is dropped. -/
def removeSource (store s p : String) (values : List ValueDto) : List ValueDto :=
  values.filterMap (removeSourceOf store s p)

/-- A server for the concrete evaluations below. Store options are names:
the repository knows the store `S` only, whose value store holds the
document `{"k":"v"}` at path `p`; every template is `{{k}}`. -/
def sampleServer : Server String String where
  configStorage := "static"
  zeroStoreOptions := ""
  zeroSecretsOptions := ""
  repoGetStoreOptions := fun name => if name = "S" then some "opts-S" else none
  repoGetSecretsOptions := fun _ => none
  decodeStoreOptions := fun d _ => d
  decodeSecretsOptions := fun d _ => d
  decodeObject := fun d =>
    if d = "\x7b\"k\":\"v\"\x7d" then some (AList.singleton "k" (JSON.str "v")) else none
  valuesInBatch := fun opt paths =>
    if opt = "opts-S" ∧ "p" ∈ paths then AList.singleton "p" "\x7b\"k\":\"v\"\x7d" else ∅
  templateAt := fun _ _ => "\x7b\x7bk\x7d\x7d"
  secretsMapAt := fun _ _ _ => ""
  mergePatch := fun _ _ => none
  secretAt := fun _ _ _ => JSON.null
  jsonPath := fun _ _ => []
  marshalResult := fun _ => ""

/-- The sample server with a `default` entry in its configuration repository. -/
def sampleServerWithDefault : Server String String :=
  { sampleServer with
    repoGetStoreOptions := fun name => if name = "default" then some "opts-default" else none }

/-- What the projection result must bind `k` to: the projection of the
matches of `k`'s path expression, nothing when `k` is not in the mapping. -/
def projectionOf (jsonPath : JSON → String → List JSON) (mapping : GoMap JSON) (root : JSON)
    (k : String) : Option JSON :=
  match mapping.lookup k with
  | some (JSON.str expr) => projected (jsonPath root expr)
  | _ => none

/-- The secret `{"a":[1,2],"b":3}` of the projection example. -/
def sampleSecret : JSON :=
  JSON.obj [("a", JSON.arr [JSON.num 1, JSON.num 2]), ("b", JSON.num 3)]

/-- The nodes the path expressions of the projection example match in
`sampleSecret`: `$.a[*]` the two elements of `a`, `$.b` the member `b`,
anything else nothing. -/
def sampleJSONPath (_root : JSON) (expr : String) : List JSON :=
  if expr = "$.a[*]" then [JSON.num 1, JSON.num 2]
  else if expr = "$.b" then [JSON.num 3]
  else []

/-- The sample server with a stored descriptor that decodes to an object
without a `path` field. -/
def sampleServerNoPath : Server String String :=
  { sampleServer with
    mergePatch := fun doc _ => some doc
    secretsMapAt := fun _ _ _ => "\x7b\"k\":\"v\"\x7d" }

/-- The text of a template written segment by segment: each segment is a
literal text followed by the placeholder of a key between the delimiters,
and `tail` is the literal text after the last placeholder. -/
def templateText (segs : List (List Char × String)) (tail : List Char) : List Char :=
  segs.foldr
    (fun seg acc => seg.1 ++ (startTag.data ++ (seg.2.data ++ (endTag.data ++ acc))))
    tail

/-- The text a placeholder of `key` is replaced by: the string bound to
`key`, and the empty string when `key` is unbound. -/
def valueText (m : GoMap JSON) (key : String) : List Char :=
  match m.lookup key with
  | some (JSON.str v) => v.data
  | _ => []

/-- The template text with every placeholder replaced by the text of its
key, the literal texts kept as they are. -/
def substituted (m : GoMap JSON) (segs : List (List Char × String)) (tail : List Char) :
    List Char :=
  segs.foldr (fun seg acc => seg.1 ++ (valueText m seg.2 ++ acc)) tail

/-- The keys named by the placeholders of a template: the tags found by
`fasttemplate.New`, none when the template does not parse. -/
def templateTags (rawTmpl : String) : List String :=
  match New rawTmpl.data startTag.data endTag.data with
  | .error _ => []
  | .ok tmpl => tmpl.tags

/-- Appending one path under one store, the body of the first loop. -/
def addRef (storeMap : GoMap (List String)) (sp : String × String) : GoMap (List String) :=
  storeMap.insert sp.1 ((storeMap.lookup sp.1).getD [] ++ [sp.2])

/-! ## Lemmas on the merger -/

theorem lookup_foldl_insert (k : String) (es : List (Sigma fun _ : String => JSON))
    (hnd : es.NodupKeys) (tvm : GoMap JSON) :
    (es.foldl (fun acc e => acc.insert e.1 e.2) tvm).lookup k
      = (es.dlookup k).orElse (fun _ => tvm.lookup k) := by
  induction es generalizing tvm with
  | nil => simp
  | cons e es ih =>
    obtain ⟨a, b⟩ := e
    rw [List.nodupKeys_cons] at hnd
    simp only [List.foldl_cons]
    rw [ih hnd.2]
    by_cases h : a = k
    · subst h
      have : es.dlookup a = none := by
        rw [List.dlookup_eq_none]; exact hnd.1
      simp [this, AList.lookup_insert]
    · have h2 : k ≠ a := fun e => h e.symm
      rw [List.dlookup_cons_ne es ⟨a, b⟩ h2]
      cases hl : es.dlookup k <;> simp [AList.lookup_insert_ne h2]

theorem lookup_rangeAssign (k : String) (vm : Option (GoMap JSON)) (tvm : GoMap JSON) :
    (rangeAssign vm tvm).lookup k = (vm.bind (fun m => m.lookup k)).orElse (fun _ => tvm.lookup k) := by
  cases vm with
  | none => simp [rangeAssign]
  | some m =>
    simp only [rangeAssign, Option.some_bind]
    rw [lookup_foldl_insert k m.entries m.nodupKeys tvm]
    rfl

theorem lookup_mergeStores (dec : String → Option (GoMap JSON)) (svm : GoMap (GoMap String))
    (path k : String) (storeKeys : List String) (tvm : GoMap JSON) :
    (mergeStores dec svm path storeKeys tvm).lookup k
      = ((storeKeys.map (fun s => (s, path))).findSome? (sourceValue dec svm k)).orElse
          (fun _ => tvm.lookup k) := by
  induction storeKeys with
  | nil => simp [mergeStores]
  | cons s ss ih =>
    have hstep : mergeStores dec svm path (s :: ss) tvm
        = rangeAssign (unmarshalObject dec (index2 svm s path)) (mergeStores dec svm path ss tvm) := rfl
    rw [hstep, lookup_rangeAssign, ih]
    simp only [List.map_cons, List.findSome?_cons, sourceValue]
    cases h : (unmarshalObject dec (index2 svm s path)).bind (fun m => m.lookup k) <;> simp

theorem lookup_mergeValues_aux (dec : String → Option (GoMap JSON)) (store : String)
    (svm : GoMap (GoMap String)) (k : String) (values : List ValueDto) :
    (mergeValues dec store svm values).lookup k
      = (declaredSources store values).findSome? (sourceValue dec svm k) := by
  induction values with
  | nil => simp [mergeValues, declaredSources]
  | cons v vs ih =>
    have hstep : mergeValues dec store svm (v :: vs)
        = mergeStores dec svm v.Path (defaultStoreKeys v.StoreKeys store)
            (mergeValues dec store svm vs) := rfl
    rw [hstep, lookup_mergeStores, ih]
    simp only [declaredSources, List.flatMap_cons, List.findSome?_append]
    cases h : List.findSome? (sourceValue dec svm k)
      (List.map (fun s => (s, v.Path)) (defaultStoreKeys v.StoreKeys store)) <;> simp

theorem mergeStores_filter (dec : String → Option (GoMap JSON)) (svm : GoMap (GoMap String))
    (s p : String) (h : unmarshalObject dec (index2 svm s p) = none)
    (storeKeys : List String) (tvm : GoMap JSON) :
    mergeStores dec svm p (storeKeys.filter (fun x => x ≠ s)) tvm
      = mergeStores dec svm p storeKeys tvm := by
  induction storeKeys with
  | nil => rfl
  | cons x xs ih =>
    by_cases hx : x = s
    · subst hx
      have hstep : mergeStores dec svm p (x :: xs) tvm
          = rangeAssign (unmarshalObject dec (index2 svm x p)) (mergeStores dec svm p xs tvm) := rfl
      rw [hstep, h]
      simpa [rangeAssign] using ih
    · have hf : (x :: xs).filter (fun y => y ≠ s) = x :: xs.filter (fun y => y ≠ s) := by
        simp [List.filter_cons, hx]
      rw [hf]
      show rangeAssign _ (mergeStores dec svm p (xs.filter (fun y => y ≠ s)) tvm)
        = rangeAssign _ (mergeStores dec svm p xs tvm)
      rw [ih]

/-! ## Lemmas on the template scanner -/

theorem bytesIndex_cons (sep : List Char) (c : Char) (t : List Char) :
    bytesIndex sep (c :: t)
      = if sep.isPrefixOf (c :: t) then some 0 else (bytesIndex sep t).map (· + 1) := rfl

theorem bytesIndex_some (sep : List Char) (s : List Char) (n : Nat)
    (h : bytesIndex sep s = some n) :
    sep <+: s.drop n ∧ n + sep.length ≤ s.length := by
  induction s generalizing n with
  | nil =>
    unfold bytesIndex at h
    split at h
    · rename_i hs
      cases h
      subst hs
      exact ⟨List.prefix_refl _, by simp⟩
    · cases h
  | cons c t ih =>
    rw [bytesIndex_cons] at h
    split at h
    · rename_i hp
      cases h
      have hp2 : sep <+: c :: t := List.isPrefixOf_iff_prefix.1 hp
      exact ⟨hp2, by simpa using hp2.length_le⟩
    · cases hk : bytesIndex sep t with
      | none => rw [hk] at h; cases h
      | some k =>
        rw [hk] at h
        simp only [Option.map_some', Option.some.injEq] at h
        subst h
        obtain ⟨h1, h2⟩ := ih k hk
        refine ⟨by simpa using h1, ?_⟩
        simp only [List.length_cons]
        omega

theorem bytesIndex_none (sep : List Char) (s : List Char) (h : bytesIndex sep s = none) :
    ¬ sep <:+: s := by
  induction s with
  | nil =>
    unfold bytesIndex at h
    split at h
    · cases h
    · rename_i hs
      intro hi
      exact hs (List.eq_nil_of_infix_nil hi)
  | cons c t ih =>
    rw [bytesIndex_cons] at h
    split at h
    · cases h
    · rename_i hp
      have hk : bytesIndex sep t = none := by
        cases hk : bytesIndex sep t with
        | none => rfl
        | some k => rw [hk] at h; cases h
      rw [List.infix_cons_iff]
      rintro (h1 | h1)
      · exact hp (List.isPrefixOf_iff_prefix.2 h1)
      · exact ih hk h1

theorem bytesIndex_first (sep : List Char) (hne : sep ≠ []) (t rest : List Char)
    (h : ¬ sep <:+: t ++ sep.dropLast) :
    bytesIndex sep (t ++ (sep ++ rest)) = some t.length := by
  induction t with
  | nil =>
    cases hs : sep with
    | nil => exact absurd hs hne
    | cons x xs =>
      have hp : (x :: xs).isPrefixOf (x :: (xs ++ rest)) = true :=
        List.isPrefixOf_iff_prefix.2 (List.prefix_append (x :: xs) rest)
      show bytesIndex (x :: xs) (x :: (xs ++ rest)) = some 0
      rw [bytesIndex_cons, if_pos hp]
  | cons c t ih =>
    have hnp : ¬ (sep.isPrefixOf (c :: (t ++ (sep ++ rest))) = true) := by
      intro hp
      have hp1 : sep <+: (c :: t) ++ (sep ++ rest) := List.isPrefixOf_iff_prefix.1 hp
      have hsplit : sep.dropLast ++ [sep.getLast hne] = sep := List.dropLast_append_getLast hne
      have hp2 : (c :: t) ++ sep.dropLast <+: (c :: t) ++ (sep ++ rest) := by
        refine ⟨[sep.getLast hne] ++ rest, ?_⟩
        rw [List.append_assoc, ← List.append_assoc sep.dropLast, hsplit]
      have hlen : sep.length ≤ ((c :: t) ++ sep.dropLast).length := by
        have : sep.dropLast.length = sep.length - 1 := List.length_dropLast sep
        simp only [List.length_append, List.length_cons]
        omega
      exact h (List.prefix_of_prefix_length_le hp1 hp2 hlen).isInfix
    have hrec : ¬ sep <:+: t ++ sep.dropLast := by
      intro hi
      exact h (hi.trans (List.suffix_cons c (t ++ sep.dropLast)).isInfix)
    show bytesIndex sep (c :: (t ++ (sep ++ rest))) = some (t.length + 1)
    rw [bytesIndex_cons, if_neg hnp, ih hrec]
    rfl

theorem bytesIndex_absent (sep : List Char) (s : List Char) (h : ¬ sep <:+: s) :
    bytesIndex sep s = none := by
  cases hk : bytesIndex sep s with
  | none => rfl
  | some n =>
    obtain ⟨h1, _⟩ := bytesIndex_some sep s n hk
    exact absurd (h1.isInfix.trans (List.drop_suffix n s).isInfix) h

theorem resetLoop_succ (a b : List Char) (fuel : Nat) (s : List Char) :
    resetLoop a b (fuel + 1) s
      = match bytesIndex a s with
        | none => .ok ([s], [])
        | some n =>
          match bytesIndex b (s.drop (n + a.length)) with
          | none => .error "Cannot find end tag"
          | some m =>
            match resetLoop a b fuel ((s.drop (n + a.length)).drop (m + b.length)) with
            | .error e => .error e
            | .ok r => .ok (s.take n :: r.1, String.mk ((s.drop (n + a.length)).take m) :: r.2) := rfl

theorem startTag_ne_nil : startTag.data ≠ [] := by decide

theorem endTag_ne_nil : endTag.data ≠ [] := by decide

theorem resetLoop_segments (segs : List (List Char × String)) (tail : List Char)
    (hsegs : ∀ seg ∈ segs, ¬ startTag.data <:+: seg.1 ++ startTag.data.dropLast ∧
      ¬ endTag.data <:+: seg.2.data ++ endTag.data.dropLast)
    (htail : ¬ startTag.data <:+: tail) (fuel : Nat)
    (hfuel : (templateText segs tail).length < fuel) :
    resetLoop startTag.data endTag.data fuel (templateText segs tail)
      = .ok (segs.map (fun seg => seg.1) ++ [tail], segs.map (fun seg => seg.2)) := by
  induction segs generalizing fuel with
  | nil =>
    cases fuel with
    | zero => exact absurd hfuel (Nat.not_lt_zero _)
    | succ f =>
      rw [resetLoop_succ]
      have h0 : bytesIndex startTag.data (templateText [] tail) = none :=
        bytesIndex_absent _ _ htail
      rw [h0]
      rfl
  | cons seg segs ih =>
    obtain ⟨t, k⟩ := seg
    cases fuel with
    | zero => exact absurd hfuel (Nat.not_lt_zero _)
    | succ f =>
      obtain ⟨hst, hsk⟩ := hsegs (t, k) (List.mem_cons_self _ _)
      have htext : templateText ((t, k) :: segs) tail
          = t ++ (startTag.data ++ (k.data ++ (endTag.data ++ templateText segs tail))) := rfl
      have h1 : bytesIndex startTag.data (templateText ((t, k) :: segs) tail) = some t.length := by
        rw [htext]
        exact bytesIndex_first _ startTag_ne_nil t _ hst
      have hd1 : (templateText ((t, k) :: segs) tail).drop (t.length + startTag.data.length)
          = k.data ++ (endTag.data ++ templateText segs tail) := by
        rw [htext, List.drop_append, List.drop_left]
      have h2 : bytesIndex endTag.data (k.data ++ (endTag.data ++ templateText segs tail))
          = some k.data.length :=
        bytesIndex_first _ endTag_ne_nil k.data _ hsk
      have hd2 : (k.data ++ (endTag.data ++ templateText segs tail)).drop
            (k.data.length + endTag.data.length) = templateText segs tail := by
        rw [List.drop_append, List.drop_left]
      have hlen : (templateText segs tail).length < f := by
        have ha : startTag.data.length = 2 := rfl
        rw [htext] at hfuel
        simp only [List.length_append] at hfuel
        omega
      rw [resetLoop_succ, h1]
      simp only
      rw [hd1, h2]
      simp only
      rw [hd2, ih (fun seg hs => hsegs seg (List.mem_cons_of_mem _ hs)) f hlen]
      simp only [htext, List.take_left, List.map_cons, List.cons_append]

theorem stdTagFunc_str (m : GoMap JSON) (hstr : ∀ e ∈ m.entries, ∃ v, e.2 = JSON.str v)
    (tag : String) : stdTagFunc tag m = .ok (valueText m tag) := by
  unfold stdTagFunc valueText
  cases hl : m.lookup tag with
  | none => rfl
  | some v =>
    have hmem : (⟨tag, v⟩ : Sigma fun _ : String => JSON) ∈ m.entries :=
      AList.mem_lookup_iff.1 hl
    obtain ⟨x, hx⟩ := hstr _ hmem
    simp only at hx
    subst hx
    rfl

theorem executeLoop_segments (m : GoMap JSON) (hstr : ∀ e ∈ m.entries, ∃ v, e.2 = JSON.str v)
    (segs : List (List Char × String)) (tail : List Char) :
    executeLoop m (segs.map (fun seg => seg.1) ++ [tail]) (segs.map (fun seg => seg.2))
      = .ok (substituted m segs tail) := by
  induction segs with
  | nil => rfl
  | cons seg segs ih =>
    obtain ⟨t, k⟩ := seg
    cases hrest : segs.map (fun seg => seg.1) ++ [tail] with
    | nil => simp at hrest
    | cons x xs =>
      have hunf : executeLoop m (t :: x :: xs) (k :: segs.map (fun seg => seg.2))
          = match stdTagFunc k m with
            | .error e => .error e
            | .ok v =>
              match executeLoop m (x :: xs) (segs.map (fun seg => seg.2)) with
              | .error e => .error e
              | .ok rest => .ok (t ++ v ++ rest) := rfl
      simp only [List.map_cons, List.cons_append, hrest]
      rw [hunf, stdTagFunc_str m hstr k, ← hrest, ih]
      simp only [substituted, List.foldr_cons, List.append_assoc]

theorem resetLoop_closed (tmpl : List Char)
    (hclosed : ∀ i < tmpl.length, startTag.data <+: tmpl.drop i →
      endTag.data <:+: tmpl.drop (i + startTag.data.length))
    (fuel off : Nat) (hfuel : (tmpl.drop off).length < fuel) :
    ∃ r, resetLoop startTag.data endTag.data fuel (tmpl.drop off) = .ok r ∧
      r.1.length = r.2.length + 1 := by
  induction fuel generalizing off with
  | zero => exact absurd hfuel (Nat.not_lt_zero _)
  | succ f ih =>
    rw [resetLoop_succ]
    cases h1 : bytesIndex startTag.data (tmpl.drop off) with
    | none => exact ⟨([tmpl.drop off], []), rfl, rfl⟩
    | some n =>
      obtain ⟨hpre, hle⟩ := bytesIndex_some _ _ n h1
      have ha : startTag.data.length = 2 := rfl
      rw [List.length_drop] at hle hfuel
      rw [List.drop_drop] at hpre
      have hin : endTag.data <:+: tmpl.drop (off + n + startTag.data.length) :=
        hclosed (off + n) (by omega) hpre
      have hd : (tmpl.drop off).drop (n + startTag.data.length)
          = tmpl.drop (off + n + startTag.data.length) := by
        rw [List.drop_drop, Nat.add_assoc]
      simp only
      rw [hd]
      cases h2 : bytesIndex endTag.data (tmpl.drop (off + n + startTag.data.length)) with
      | none => exact absurd hin (bytesIndex_none _ _ h2)
      | some k =>
        simp only
        rw [List.drop_drop]
        obtain ⟨r, hr, hlen⟩ := ih (off + n + startTag.data.length + (k + endTag.data.length))
          (by rw [List.length_drop]; omega)
        rw [hr]
        exact ⟨_, rfl, by simp [hlen]⟩

theorem executeLoop_ok (m : GoMap JSON) (tags : List String) (texts : List (List Char))
    (hlen : texts.length = tags.length + 1)
    (hok : ∀ tag ∈ tags, ∃ v, stdTagFunc tag m = .ok v) :
    ∃ out, executeLoop m texts tags = .ok out := by
  induction tags generalizing texts with
  | nil =>
    cases texts with
    | nil => cases hlen
    | cons x xs =>
      cases xs with
      | nil => exact ⟨x, rfl⟩
      | cons y ys => simp at hlen
  | cons tag tags ih =>
    cases texts with
    | nil => cases hlen
    | cons t texts =>
      cases texts with
      | nil => simp at hlen
      | cons x xs =>
        obtain ⟨v, hv⟩ := hok tag (List.mem_cons_self _ _)
        obtain ⟨rest, hrest⟩ := ih (x :: xs) (by simpa using hlen)
          (fun tg htg => hok tg (List.mem_cons_of_mem _ htg))
        have hunf : executeLoop m (t :: x :: xs) (tag :: tags)
            = match stdTagFunc tag m with
              | .error e => .error e
              | .ok v =>
                match executeLoop m (x :: xs) tags with
                | .error e => .error e
                | .ok rest => .ok (t ++ v ++ rest) := rfl
        rw [hunf, hv, hrest]
        exact ⟨_, rfl⟩

theorem stdTagFunc_ok (m : GoMap JSON) (tag : String)
    (h : m.lookup tag = none ∨ m.lookup tag = some JSON.null ∨
      ∃ v, m.lookup tag = some (JSON.str v)) :
    ∃ out, stdTagFunc tag m = .ok out := by
  unfold stdTagFunc
  rcases h with h | h | ⟨v, h⟩ <;> rw [h] <;> exact ⟨_, rfl⟩

/-! ## The claims -/

/-- C1: the value map that `Render` builds binds every key `k` to the value
`k` has in the document of the first source, in declaration order (entries
in request order, effective store keys in list order), whose raw value
parses as a JSON object containing `k`, and leaves `k` unbound when no
source has it. -/
theorem render_merge_first_declared_wins (decodeObject : String → Option (GoMap JSON))
    (store : String) (storeValueMap : GoMap (GoMap String)) (values : List ValueDto)
    (k : String) :
    (mergeValues decodeObject store storeValueMap values).lookup k
      = (declaredSources store values).findSome? (sourceValue decodeObject storeValueMap k) :=
  lookup_mergeValues_aux decodeObject store storeValueMap k values

/-- C9: a source `(s, p)` whose raw value is missing from the prefetched map
or does not decode to a JSON object contributes nothing and does not stop
the merge: the merged map is the one of the request with that source
removed. -/
theorem render_merge_skips_malformed_source (decodeObject : String → Option (GoMap JSON))
    (store : String) (storeValueMap : GoMap (GoMap String)) (values : List ValueDto)
    (s p : String)
    (h : (storeValueMap.lookup s).bind (fun inner => inner.lookup p) = none ∨
      decodeObject (index2 storeValueMap s p) = none) :
    mergeValues decodeObject store storeValueMap values
      = mergeValues decodeObject store storeValueMap (removeSource store s p values) := by
  have hnone : unmarshalObject decodeObject (index2 storeValueMap s p) = none := by
    rcases h with h | h
    · have : index2 storeValueMap s p = "" := by
        unfold index2
        cases hl : storeValueMap.lookup s with
        | none => rfl
        | some inner =>
          rw [hl] at h
          simp only [Option.some_bind] at h
          simp [h]
      simp [unmarshalObject, this]
    · unfold unmarshalObject
      split
      · rfl
      · exact h
  induction values with
  | nil => rfl
  | cons v vs ih =>
    have hstep : mergeValues decodeObject store storeValueMap (v :: vs)
        = mergeStores decodeObject storeValueMap v.Path (defaultStoreKeys v.StoreKeys store)
            (mergeValues decodeObject store storeValueMap vs) := rfl
    rw [hstep, ih]
    by_cases hp : v.Path = p
    · have hf := mergeStores_filter decodeObject storeValueMap s p hnone
        (defaultStoreKeys v.StoreKeys store)
        (mergeValues decodeObject store storeValueMap (removeSource store s p vs))
      rw [hp, ← hf]
      cases hk : (defaultStoreKeys v.StoreKeys store).filter (fun x => x ≠ s) with
      | nil =>
        have h1 : removeSourceOf store s p v = none := by
          unfold removeSourceOf; rw [if_pos hp, hk]
        have : removeSource store s p (v :: vs) = removeSource store s p vs := by
          simp only [removeSource, List.filterMap_cons, h1]
        rw [this]; rfl
      | cons x xs =>
        have h1 : removeSourceOf store s p v = some { Path := v.Path, StoreKeys := x :: xs } := by
          unfold removeSourceOf; rw [if_pos hp, hk]
        have : removeSource store s p (v :: vs)
            = { Path := v.Path, StoreKeys := x :: xs } :: removeSource store s p vs := by
          simp only [removeSource, List.filterMap_cons, h1]
        rw [this]
        show _ = mergeStores decodeObject storeValueMap v.Path (defaultStoreKeys (x :: xs) store) _
        rw [hp]
        rfl
    · have h1 : removeSourceOf store s p v = some v := by
        unfold removeSourceOf; rw [if_neg hp]
      have : removeSource store s p (v :: vs) = v :: removeSource store s p vs := by
        simp only [removeSource, List.filterMap_cons, h1]
      rw [this]
      rfl

theorem render_merge_skips_malformed_source_witness :
    mergeValues sampleServer.decodeObject "S"
        (AList.singleton "S" (AList.singleton "q" "[1]"))
        [{ Path := "q", StoreKeys := ["S"] }, { Path := "p", StoreKeys := [] }]
      = mergeValues sampleServer.decodeObject "S"
        (AList.singleton "S" (AList.singleton "q" "[1]"))
        (removeSource "S" "S" "q"
          [{ Path := "q", StoreKeys := ["S"] }, { Path := "p", StoreKeys := [] }]) :=
  render_merge_skips_malformed_source sampleServer.decodeObject "S"
    (AList.singleton "S" (AList.singleton "q" "[1]"))
    [{ Path := "q", StoreKeys := ["S"] }, { Path := "p", StoreKeys := [] }] "S" "q"
    (Or.inr rfl)

/-! ## Lemmas on the prefetcher -/

theorem buildStoreMap_eq_foldl (values : List ValueDto) (sm : GoMap (List String)) :
    values.foldl
      (fun storeMap val =>
        (defaultStoreKeys val.StoreKeys "").foldl
          (fun storeMap s => storeMap.insert s ((storeMap.lookup s).getD [] ++ [val.Path]))
          storeMap) sm
      = (declaredSources "" values).foldl addRef sm := by
  induction values generalizing sm with
  | nil => simp [declaredSources]
  | cons v vs ih =>
    simp only [List.foldl_cons, declaredSources, List.flatMap_cons, List.foldl_append]
    rw [ih]
    simp only [declaredSources, List.foldl_map]
    rfl

theorem lookup_foldl_addRef (s : String) (ps : List (String × String))
    (sm : GoMap (List String)) :
    ((ps.foldl addRef sm).lookup s).getD []
        = (sm.lookup s).getD [] ++ ((ps.filter (fun sp => sp.1 = s)).map (fun sp => sp.2)) ∧
      (s ∈ ps.foldl addRef sm ↔ s ∈ sm ∨ s ∈ ps.map Prod.fst) := by
  induction ps generalizing sm with
  | nil => simp
  | cons p ps ih =>
    obtain ⟨s1, p1⟩ := p
    simp only [List.foldl_cons]
    obtain ⟨h1, h2⟩ := ih (addRef sm (s1, p1))
    by_cases h : s1 = s
    · subst h
      refine ⟨?_, ?_⟩
      · rw [h1]; simp [addRef, AList.lookup_insert]
      · rw [h2]; simp [addRef, AList.mem_insert]
    · have hne : s ≠ s1 := fun e => h e.symm
      refine ⟨?_, ?_⟩
      · rw [h1]; simp [addRef, AList.lookup_insert_ne hne, h]
      · rw [h2]; simp [addRef, AList.mem_insert, hne]

theorem buildStoreMap_lookup (s : String) (values : List ValueDto) :
    ((buildStoreMap values).lookup s).getD [] = pathsUnder s values ∧
      (s ∈ buildStoreMap values ↔ s ∈ referencedStores values) := by
  have hb : buildStoreMap values = (declaredSources "" values).foldl addRef ∅ :=
    buildStoreMap_eq_foldl values ∅
  obtain ⟨h1, h2⟩ := lookup_foldl_addRef s (declaredSources "" values) ∅
  rw [hb]
  refine ⟨?_, ?_⟩
  · rw [h1]; simp [pathsUnder]
  · rw [h2]
    simp [declaredSources, referencedStores, List.map_flatMap]

theorem prefetch_calls_aux {SO SecO : Type} (svr : Server SO SecO)
    (es : List (Sigma fun _ : String => List String)) (st : Prefetch) :
    (es.foldl
      (fun st e =>
        ({ calls := st.calls ++ [(e.1, e.2)]
           storeValueMap := storeBatch st.storeValueMap e.1 (GetValuesInBatch svr e.1 e.2) } : Prefetch))
      st).calls = st.calls ++ es.map (fun e => (e.1, e.2)) := by
  induction es generalizing st with
  | nil => simp
  | cons e es ih => simp [ih]

theorem prefetch_calls {SO SecO : Type} (svr : Server SO SecO) (render : RenderDto) :
    (prefetchValuesByBatch render svr).calls
      = (buildStoreMap render.Values).entries.map (fun e => (e.1, e.2)) := by
  simp [prefetchValuesByBatch, prefetch_calls_aux]

theorem prefetch_call_stores {SO SecO : Type} (svr : Server SO SecO) (render : RenderDto) :
    (prefetchValuesByBatch render svr).calls.map Prod.fst = (buildStoreMap render.Values).keys := by
  rw [prefetch_calls]
  simp [AList.keys, List.keys, List.map_map, Function.comp_def]

theorem prefetch_call_mem {SO SecO : Type} (svr : Server SO SecO) (render : RenderDto)
    (c : String × List String) :
    c ∈ (prefetchValuesByBatch render svr).calls
      ↔ c.1 ∈ referencedStores render.Values ∧ c.2 = pathsUnder c.1 render.Values := by
  obtain ⟨s, paths⟩ := c
  obtain ⟨h1, h2⟩ := buildStoreMap_lookup s render.Values
  rw [prefetch_calls]
  have hmem : (s, paths) ∈ (buildStoreMap render.Values).entries.map (fun e => (e.1, e.2))
      ↔ (buildStoreMap render.Values).lookup s = some paths := by
    rw [← Option.mem_def, AList.mem_lookup_iff]
    constructor
    · intro h
      obtain ⟨e, he, heq⟩ := List.mem_map.1 h
      obtain ⟨a, b⟩ := e
      simp only [Prod.mk.injEq] at heq
      obtain ⟨ha, hb⟩ := heq
      subst ha; subst hb
      exact he
    · intro h
      exact List.mem_map.2 ⟨⟨s, paths⟩, h, rfl⟩
  rw [hmem]
  constructor
  · intro h
    have hin : s ∈ buildStoreMap render.Values := by
      rw [← AList.lookup_isSome, h]; rfl
    refine ⟨h2.1 hin, ?_⟩
    rw [h] at h1
    exact h1
  · rintro ⟨hr, hp⟩
    have hin : s ∈ buildStoreMap render.Values := h2.2 hr
    rw [← AList.lookup_isSome] at hin
    cases hl : (buildStoreMap render.Values).lookup s with
    | none => rw [hl] at hin; cases hin
    | some q =>
      rw [hl] at h1
      simp only [Option.getD_some] at h1
      simp only at hp
      rw [h1, hp]

/-- C6: `prefetchValuesByBatch` issues one `GetValuesInBatch` call for each
distinct store name the request references (an entry with empty `StoreKeys`
referencing one store, the one named `""`) and no other call: the stores of
the calls are pairwise distinct, they are the referenced stores, and the
number of calls is the number of distinct referenced stores. -/
theorem prefetch_one_call_per_distinct_store {SO SecO : Type} (svr : Server SO SecO)
    (render : RenderDto) :
    ((prefetchValuesByBatch render svr).calls.map Prod.fst).Nodup ∧
      (∀ s, s ∈ (prefetchValuesByBatch render svr).calls.map Prod.fst
        ↔ s ∈ referencedStores render.Values) ∧
      (prefetchValuesByBatch render svr).calls.length
        = (referencedStores render.Values).dedup.length := by
  have hk := prefetch_call_stores svr render
  have hnd : ((prefetchValuesByBatch render svr).calls.map Prod.fst).Nodup := by
    rw [hk]; exact AList.keys_nodup _
  have hmem : ∀ s, s ∈ (prefetchValuesByBatch render svr).calls.map Prod.fst
      ↔ s ∈ referencedStores render.Values := by
    intro s
    rw [hk, ← AList.mem_keys]
    exact (buildStoreMap_lookup s render.Values).2
  refine ⟨hnd, hmem, ?_⟩
  have hperm : ((prefetchValuesByBatch render svr).calls.map Prod.fst).Perm
      (referencedStores render.Values).dedup := by
    rw [List.perm_ext_iff_of_nodup hnd (List.nodup_dedup _)]
    intro s
    rw [hmem s, List.mem_dedup]
  have := hperm.length_eq
  simpa using this

/-- C10, as the code has it: the calls of `prefetchValuesByBatch` are the
pairs of a referenced store and the list of the paths referenced under it,
one occurrence per reference in request order; repeated references are not
removed. -/
theorem prefetch_paths_one_per_reference {SO SecO : Type} (svr : Server SO SecO)
    (render : RenderDto) (c : String × List String) :
    c ∈ (prefetchValuesByBatch render svr).calls
      ↔ c.1 ∈ referencedStores render.Values ∧ c.2 = pathsUnder c.1 render.Values :=
  prefetch_call_mem svr render c

/-- C10 fails as stated: two entries that reference the same store and path
make the batched read receive that path twice. -/
theorem prefetch_paths_repeat_counterexample :
    (prefetchValuesByBatch
        { Values := [{ Path := "p", StoreKeys := ["A"] }, { Path := "p", StoreKeys := ["A"] }] }
        sampleServer).calls = [("A", ["p", "p"])] ∧
      ¬ (["p", "p"] : List String).Nodup := by
  refine ⟨rfl, by decide⟩

/-- C8: with no `default` entry in the repository `GetStoreOptions("")` is
the static fallback, and with one it is the options decoded from that
entry; for a non-empty store name it is the options decoded from that exact
entry, and the zero-value options when the entry is absent. -/
theorem getStoreOptions_resolution {SO SecO : Type} (svr : Server SO SecO) :
    (svr.repoGetStoreOptions "default" = none → GetStoreOptions svr "" = svr.configStorage) ∧
      (∀ optJson, svr.repoGetStoreOptions "default" = some optJson →
        GetStoreOptions svr ""
          = unmarshalInto svr.decodeStoreOptions (some optJson) svr.zeroStoreOptions) ∧
      (∀ store optJson, store ≠ "" → svr.repoGetStoreOptions store = some optJson →
        GetStoreOptions svr store
          = unmarshalInto svr.decodeStoreOptions (some optJson) svr.zeroStoreOptions) ∧
      (∀ store, store ≠ "" → svr.repoGetStoreOptions store = none →
        GetStoreOptions svr store = svr.zeroStoreOptions) := by
  refine ⟨?_, ?_, ?_, ?_⟩
  · intro h
    simp [GetStoreOptions, h]
  · intro optJson h
    simp [GetStoreOptions, h]
  · intro store optJson hne h
    simp [GetStoreOptions, hne, h]
  · intro store hne h
    simp [GetStoreOptions, hne, h, unmarshalInto]

theorem getStoreOptions_resolution_witness :
    GetStoreOptions sampleServer "" = "static" ∧
      GetStoreOptions sampleServerWithDefault "" = "opts-default" ∧
      GetStoreOptions sampleServer "S" = "opts-S" ∧
      GetStoreOptions sampleServer "T" = "" ∧
      GetStoreOptions sampleServerWithDefault "T" = "" :=
  ⟨(getStoreOptions_resolution sampleServer).1 rfl,
    (getStoreOptions_resolution sampleServerWithDefault).2.1 "opts-default" rfl,
    (getStoreOptions_resolution sampleServer).2.2.1 "S" "opts-S" (by decide) rfl,
    (getStoreOptions_resolution sampleServer).2.2.2 "T" (by decide) rfl,
    (getStoreOptions_resolution sampleServerWithDefault).2.2.2 "T" (by decide) rfl⟩

/-- C2 fails on the code: with the ambient store `S` an entry with empty
`StoreKeys` is prefetched from the store `""` and merged from the store
`S`, so the document at its path in `S` never reaches the value map, while
the same entry with `StoreKeys = [S]` renders it. -/
theorem render_empty_storeKeys_divergence :
    (prefetchValuesByBatch { Values := [{ Path := "p", StoreKeys := [] }] } sampleServer).calls
        = [("", ["p"])] ∧
      Render sampleServer "S" "t" { Values := [{ Path := "p", StoreKeys := [] }] }
        = .ok ("", true) ∧
      Render sampleServer "S" "t" { Values := [{ Path := "p", StoreKeys := ["S"] }] }
        = .ok ("v", true) := by
  refine ⟨rfl, rfl, rfl⟩

/-! ## Secret projection -/

theorem projectEntry_str (jsonPath : JSON → String → List JSON) (root : JSON)
    (result : GoMap JSON) (k expr : String) :
    projectEntry jsonPath root result k (JSON.str expr)
      = .ok (match projected (jsonPath root expr) with
          | none => result
          | some v => result.insert k v) := by
  unfold projectEntry
  simp only [assertString]
  cases h : jsonPath root expr with
  | nil => rfl
  | cons n ns =>
    cases ns with
    | nil => rfl
    | cons n2 ns2 => rfl

theorem projectSecrets_fold (jsonPath : JSON → String → List JSON) (root : JSON) (k : String)
    (es : List (Sigma fun _ : String => JSON)) (hnd : es.NodupKeys)
    (hstr : ∀ e ∈ es, ∃ expr, e.2 = JSON.str expr) (acc : GoMap JSON) :
    ∃ result,
      es.foldl (projectStep jsonPath root) (.ok acc) = .ok result ∧
        result.lookup k
          = (match es.dlookup k with
              | some (JSON.str expr) => projected (jsonPath root expr)
              | _ => none).orElse (fun _ => acc.lookup k) := by
  induction es generalizing acc with
  | nil => exact ⟨acc, rfl, by simp⟩
  | cons e es ih =>
    obtain ⟨a, b⟩ := e
    obtain ⟨expr, hb⟩ := hstr ⟨a, b⟩ (List.mem_cons_self _ _)
    simp only at hb
    subst hb
    rw [List.nodupKeys_cons] at hnd
    simp only [List.foldl_cons, projectStep]
    rw [projectEntry_str]
    obtain ⟨result, hres, hlook⟩ := ih hnd.2 (fun e he => hstr e (List.mem_cons_of_mem _ he))
      (match projected (jsonPath root expr) with
        | none => acc
        | some v => acc.insert a v)
    refine ⟨result, hres, ?_⟩
    rw [hlook]
    by_cases h : a = k
    · subst h
      have hno : es.dlookup a = none := by
        rw [List.dlookup_eq_none]; exact hnd.1
      rw [hno, List.dlookup_cons_eq]
      cases hp : projected (jsonPath root expr) with
      | none => simp [hp]
      | some v => simp [hp, AList.lookup_insert]
    · have h2 : k ≠ a := fun e => h e.symm
      rw [List.dlookup_cons_ne es ⟨a, JSON.str expr⟩ h2]
      cases hp : projected (jsonPath root expr) with
      | none => rfl
      | some v => simp only [AList.lookup_insert_ne h2]

/-- C3: for a descriptor map whose values are path expressions (strings)
and any secret tree, the projection of `GetSecrets` returns a result whose
bindings are exactly these: an output key whose expression matches no node
is absent, one whose expression matches one node is bound to that node's
value, one whose expression matches several is bound to the sequence of
their values in match order, and no other key is present. -/
theorem getSecrets_projection_cardinality (jsonPath : JSON → String → List JSON)
    (mapping : GoMap JSON) (root : JSON)
    (hstr : ∀ e ∈ mapping.entries, ∃ expr, e.2 = JSON.str expr) :
    ∃ result, projectSecrets jsonPath mapping root = .ok result ∧
      ∀ k, result.lookup k = projectionOf jsonPath mapping root k := by
  have key : ∀ k, ∃ result, projectSecrets jsonPath mapping root = .ok result ∧
      result.lookup k = projectionOf jsonPath mapping root k := by
    intro k
    obtain ⟨result, hres, hlook⟩ :=
      projectSecrets_fold jsonPath root k mapping.entries mapping.nodupKeys hstr ∅
    refine ⟨result, hres, ?_⟩
    rw [hlook]
    unfold projectionOf AList.lookup
    cases h : List.dlookup k mapping.entries with
    | none => simp
    | some v => cases v <;> simp
  obtain ⟨result, hres, _⟩ := key ""
  refine ⟨result, hres, ?_⟩
  intro k
  obtain ⟨result2, hres2, hlook2⟩ := key k
  rw [hres] at hres2
  cases hres2
  exact hlook2

theorem getSecrets_projection_cardinality_witness :
    (∃ result,
        projectSecrets sampleJSONPath
            (AList.insert "x" (JSON.str "$.a[*]") (AList.singleton "y" (JSON.str "$.b")))
            sampleSecret = .ok result ∧
          ∀ k, result.lookup k
            = projectionOf sampleJSONPath
                (AList.insert "x" (JSON.str "$.a[*]") (AList.singleton "y" (JSON.str "$.b")))
                sampleSecret k) ∧
      projectionOf sampleJSONPath
          (AList.insert "x" (JSON.str "$.a[*]") (AList.singleton "y" (JSON.str "$.b")))
          sampleSecret "x" = some (JSON.arr [JSON.num 1, JSON.num 2]) ∧
      projectionOf sampleJSONPath
          (AList.insert "x" (JSON.str "$.a[*]") (AList.singleton "y" (JSON.str "$.b")))
          sampleSecret "y" = some (JSON.num 3) ∧
      projectionOf sampleJSONPath (AList.singleton "z" (JSON.str "$.missing")) sampleSecret "z"
        = none :=
  ⟨getSecrets_projection_cardinality sampleJSONPath
      (AList.insert "x" (JSON.str "$.a[*]") (AList.singleton "y" (JSON.str "$.b"))) sampleSecret
      (by
        intro e he
        have he2 : e = ⟨"x", JSON.str "$.a[*]"⟩ ∨ e = ⟨"y", JSON.str "$.b"⟩ := by
          simpa [AList.insert, AList.singleton, List.kinsert, List.kerase] using he
        rcases he2 with h | h
        · exact ⟨"$.a[*]", by rw [h]⟩
        · exact ⟨"$.b", by rw [h]⟩),
    rfl, rfl, rfl⟩

/-- C7: whenever the merged descriptor is not an object with a string
`path` field and an object `map` field, `GetSecrets` ends in a panic
instead of returning a result; and when `path` is missing or not a string
the backend's `GetSecret` is not called at all. -/
theorem getSecrets_invalid_descriptor_panics {SO SecO : Type} (svr : Server SO SecO)
    (engine store path userJsonOverrides : String) :
    ((¬ ∃ p m, indexOpt (mergedDescriptor svr engine store path userJsonOverrides) "path"
            = some (JSON.str p) ∧
          indexOpt (mergedDescriptor svr engine store path userJsonOverrides) "map"
            = some (JSON.obj m)) →
        ∃ e, (GetSecrets svr engine store path userJsonOverrides).outcome = .error e) ∧
      ((¬ ∃ p, indexOpt (mergedDescriptor svr engine store path userJsonOverrides) "path"
            = some (JSON.str p)) →
        (GetSecrets svr engine store path userJsonOverrides).getSecretCalls = []) := by
  constructor
  · intro h
    unfold GetSecrets
    simp only
    cases hp : indexOpt (mergedDescriptor svr engine store path userJsonOverrides) "path" with
    | none => exact ⟨_, rfl⟩
    | some v =>
      cases v with
      | str p =>
        simp only [assertString]
        cases hm : indexOpt (mergedDescriptor svr engine store path userJsonOverrides) "map" with
        | none => exact ⟨_, rfl⟩
        | some w =>
          cases w with
          | obj m => exact absurd ⟨p, m, hp, hm⟩ h
          | null => exact ⟨_, rfl⟩
          | bool b => exact ⟨_, rfl⟩
          | num n => exact ⟨_, rfl⟩
          | str x => exact ⟨_, rfl⟩
          | arr xs => exact ⟨_, rfl⟩
      | null => exact ⟨_, rfl⟩
      | bool b => exact ⟨_, rfl⟩
      | num n => exact ⟨_, rfl⟩
      | arr xs => exact ⟨_, rfl⟩
      | obj m => exact ⟨_, rfl⟩
  · intro h
    unfold GetSecrets
    simp only
    cases hp : indexOpt (mergedDescriptor svr engine store path userJsonOverrides) "path" with
    | none => rfl
    | some v =>
      cases v with
      | str p => exact absurd ⟨p, hp⟩ h
      | null => rfl
      | bool b => rfl
      | num n => rfl
      | arr xs => rfl
      | obj m => rfl

theorem getSecrets_invalid_descriptor_panics_witness :
    (∃ e, (GetSecrets sampleServerNoPath "" "S" "db" "").outcome = .error e) ∧
      (GetSecrets sampleServerNoPath "" "S" "db" "").getSecretCalls = [] :=
  ⟨(getSecrets_invalid_descriptor_panics sampleServerNoPath "" "S" "db" "").1
      (by
        rintro ⟨p, m, hp, _⟩
        have h0 : indexOpt (mergedDescriptor sampleServerNoPath "" "S" "db" "") "path" = none := rfl
        rw [h0] at hp
        cases hp),
    (getSecrets_invalid_descriptor_panics sampleServerNoPath "" "S" "db" "").2
      (by
        rintro ⟨p, hp⟩
        have h0 : indexOpt (mergedDescriptor sampleServerNoPath "" "S" "db" "") "path" = none := rfl
        rw [h0] at hp
        cases hp)⟩

/-- C5: for a template made of literal texts and well-formed placeholders
(no start delimiter begins inside a literal text or across its end, no end
delimiter begins inside a key or across its end) and a value map whose
values are strings, the substitution step of `Render` returns the template
text with each placeholder replaced by the string bound to its key, or by
the empty string when the key is unbound, the literal texts unchanged and
the substituted strings not scanned again. -/
theorem render_substitutes_placeholders (segs : List (List Char × String)) (tail : List Char)
    (m : GoMap JSON)
    (hsegs : ∀ seg ∈ segs, ¬ startTag.data <:+: seg.1 ++ startTag.data.dropLast ∧
      ¬ endTag.data <:+: seg.2.data ++ endTag.data.dropLast)
    (htail : ¬ startTag.data <:+: tail)
    (hstr : ∀ e ∈ m.entries, ∃ v, e.2 = JSON.str v) :
    renderTemplate (String.mk (templateText segs tail)) m
      = .ok (String.mk (substituted m segs tail)) := by
  unfold renderTemplate New Template.Reset
  rw [if_neg (by decide), if_neg (by decide)]
  cases segs with
  | nil =>
    have h0 : bytesIndex startTag.data (templateText [] tail) = none :=
      bytesIndex_absent _ _ htail
    simp only [h0]
    rfl
  | cons seg segs =>
    obtain ⟨t, k⟩ := seg
    obtain ⟨hst, _⟩ := hsegs (t, k) (List.mem_cons_self _ _)
    have h1 : bytesIndex startTag.data (templateText ((t, k) :: segs) tail) = some t.length :=
      bytesIndex_first _ startTag_ne_nil t _ hst
    have h2 := resetLoop_segments ((t, k) :: segs) tail hsegs htail
      ((templateText ((t, k) :: segs) tail).length + 1) (Nat.lt_succ_self _)
    have h3 := executeLoop_segments m hstr ((t, k) :: segs) tail
    simp only [h1, h2]
    simp only [Template.Execute, List.map_cons, List.cons_append] at h3 ⊢
    rw [h3]

theorem render_substitutes_placeholders_witness :
    renderTemplate "host=\x7b\x7bh\x7d\x7d:\x7b\x7bport\x7d\x7d"
        (AList.singleton "h" (JSON.str "a")) = .ok "host=a:" :=
  render_substitutes_placeholders [("host=".data, "h"), (":".data, "port")] []
    (AList.singleton "h" (JSON.str "a"))
    (by decide) (by decide)
    (by
      intro e he
      have he2 : e = ⟨"h", JSON.str "a"⟩ := by simpa [AList.singleton] using he
      exact ⟨"a", by rw [he2]⟩)

/-- C4 fails as stated: a template with a start delimiter that is never
closed makes `fasttemplate.New` panic, and a placeholder whose key is bound
to a JSON number makes `Execute` panic. -/
theorem render_substitution_panics_counterexample :
    renderTemplate "\x7b\x7b" ∅ = .error "Cannot find end tag" ∧
      renderTemplate "\x7b\x7bn\x7d\x7d" (AList.singleton "n" (JSON.num 1))
        = .error "unexpected value type" :=
  ⟨rfl, rfl⟩

/-- C4, as the code has it: when every start delimiter of the template is
followed by an end delimiter after it, and every key named by a placeholder
is unbound, bound to null or bound to a string, the substitution step of
`Render` completes and returns a rendered text. -/
theorem render_substitution_completes (rawTmpl : String) (m : GoMap JSON)
    (hclosed : ∀ i < rawTmpl.data.length, startTag.data <+: rawTmpl.data.drop i →
      endTag.data <:+: rawTmpl.data.drop (i + startTag.data.length))
    (hvals : ∀ tag ∈ templateTags rawTmpl, m.lookup tag = none ∨
      m.lookup tag = some JSON.null ∨ ∃ v, m.lookup tag = some (JSON.str v)) :
    ∃ out, renderTemplate rawTmpl m = .ok out := by
  unfold templateTags New Template.Reset at hvals
  unfold renderTemplate New Template.Reset
  rw [if_neg (by decide), if_neg (by decide)] at hvals ⊢
  cases h1 : bytesIndex startTag.data rawTmpl.data with
  | none => exact ⟨_, rfl⟩
  | some n =>
    obtain ⟨r, hr, hlen⟩ := resetLoop_closed rawTmpl.data hclosed (rawTmpl.data.length + 1) 0
      (by simp)
    rw [List.drop_zero] at hr
    rw [h1] at hvals
    simp only [hr] at hvals ⊢
    obtain ⟨texts, tags⟩ := r
    simp only at hlen hvals
    obtain ⟨out, hout⟩ := executeLoop_ok m tags texts hlen
      (fun tag htag => stdTagFunc_ok m tag (hvals tag htag))
    cases texts with
    | nil => cases hlen
    | cons x xs =>
      simp only [Template.Execute]
      rw [hout]
      exact ⟨_, rfl⟩

theorem render_substitution_completes_witness :
    ∃ out, renderTemplate "\x7b\x7bk\x7d\x7d-\x7b\x7bj\x7d\x7d"
      (AList.insert "k" (JSON.str "v") (AList.singleton "n" (JSON.num 1))) = .ok out :=
  render_substitution_completes "\x7b\x7bk\x7d\x7d-\x7b\x7bj\x7d\x7d"
    (AList.insert "k" (JSON.str "v") (AList.singleton "n" (JSON.num 1)))
    (by decide)
    (by
      intro tag htag
      have htags : templateTags "\x7b\x7bk\x7d\x7d-\x7b\x7bj\x7d\x7d" = ["k", "j"] := rfl
      rw [htags] at htag
      simp only [List.mem_cons, List.mem_singleton, List.not_mem_nil, or_false] at htag
      rcases htag with h | h
      · rw [h]; exact Or.inr (Or.inr ⟨"v", rfl⟩)
      · rw [h]; exact Or.inl rfl)

end Orikami
